import Mathlib

/-!
Verification of the vLoD detectability pipeline (`LOD_edit.py` and
`merge_vcf_lod.py`) against its natural-language specification.

Text lines are modelled as lists of characters without the trailing
newline (the Python code strips it before every use that matters).
Machine floats are modelled by exact rationals; `log10` is kept abstract
where its value is irrelevant and is `Real.logb 10` where it matters.
A Python exception (ValueError / IndexError / NameError) is modelled by
`Option`: `none` is a raised exception that aborts the run.
-/

namespace VLoD

/-- A line (or field) of text, without a trailing newline. -/
abbrev Line := List Char

/-- Characters of a string literal. -/
def chars (s : String) : Line := s.data

/-! ## `LOD_edit.py`: per-read allele classification (`process_vcf_chunk`, lines 32-73) -/

/-- One read's pileup evidence at the variant position, as provided by
pysam: `is_refskip`, `is_del`, `query_position`, `alignment.query_sequence`
and `indel` (signed inserted-minus-deleted length). -/
structure PileupRead where
  isRefskip : Bool
  isDel : Bool
  queryPos : Nat
  seq : Line
  indel : Int
deriving DecidableEq

/-- The per-variant counters: `ref_count` and the dict
`allele_counts = {allele: 0 for allele in alt_alleles}`, modelled as an
association list in insertion order. -/
structure Counts where
  ref : Nat
  alts : List (Line × Nat)
deriving DecidableEq

/-- Keys of the `allele_counts` dict. -/
def keysOf (l : List (Line × Nat)) : List Line := l.map Prod.fst

/-- `base in allele_counts`: membership among the dict keys. -/
def hasKey (l : List (Line × Nat)) (k : Line) : Bool := (keysOf l).contains k

/-- `allele_counts[k] += 1`: increment the (first) entry with key `k`;
a missing key leaves the list unchanged (the code only increments keys
it has just tested for membership, or the alt alleles themselves). -/
def bump (k : Line) : List (Line × Nat) → List (Line × Nat)
  | [] => []
  | (a, n) :: rest => if a = k then (a, n + 1) :: rest else (a, n) :: bump k rest

/-- `allele_counts[k]` (0 if absent). -/
def getCount (l : List (Line × Nat)) (k : Line) : Nat :=
  match l.find? (fun e => e.1 = k) with
  | some e => e.2
  | none => 0

/-- `{allele: 0 for allele in alt_alleles}` together with `ref_count = 0`. -/
def initCounts (alts : List Line) : Counts := ⟨0, alts.map (fun a => (a, 0))⟩

/-- `max([len(allele) for allele in alt_alleles])` (0 on the empty list,
which the code never passes: `alt.split(",")` is never empty). -/
def maxAltLen (alts : List Line) : Nat := (alts.map List.length).foldr max 0

/-- The comparison the code performs for both SNV (lines 50-53, with the
single base as `cand`) and MNV (lines 62-65, with the read substring as
`cand`): `if cand == ref: ref_count += 1; elif cand in allele_counts:
allele_counts[cand] += 1`. -/
def matchBase (cand ref : Line) (c : Counts) : Counts :=
  if cand = ref then { c with ref := c.ref + 1 }
  else if hasKey c.alts cand then { c with alts := bump cand c.alts }
  else c

/-- The body of the indel loop (lines 69-73): `if indel ==
len(alt_allele) - len(ref): allele_counts[alt_allele] += 1; elif indel ==
0: ref_count += 1`. -/
def indelStep (r : PileupRead) (refLen : Nat) (acc : Counts) (a : Line) : Counts :=
  if r.indel = (a.length : Int) - (refLen : Int) then { acc with alts := bump a acc.alts }
  else if r.indel = 0 then { acc with ref := acc.ref + 1 }
  else acc

/-- The classification step of `process_vcf_chunk` (lines 38-73) for a
single pileup read, updating the counters.  `query_sequence[query_position]`
is always in range for pysam pileups; an out-of-range access is modelled
as no match. -/
def classifyRead (ref : Line) (altAlleles : List Line) (r : PileupRead) (c : Counts) :
    Counts :=
  if r.isRefskip then c
  else
    let refLen := ref.length
    let altLen := maxAltLen altAlleles
    if refLen = altLen then
      if refLen = 1 then
        -- SNV
        if r.isDel then c
        else
          match r.seq.get? r.queryPos with
          | none => c
          | some b => matchBase [b] ref c
      else
        -- MNV
        if r.isDel then c
        else matchBase ((r.seq.drop r.queryPos).take refLen) ref c
    else
      -- Indel
      altAlleles.foldl (indelStep r refLen) c

/-- The per-variant aggregation loop over all pileup reads (lines 36-73). -/
def countReads (ref : Line) (alts : List Line) (reads : List PileupRead) : Counts :=
  reads.foldl (fun c r => classifyRead ref alts r c) (initCounts alts)

/-- Sum of the alternate-allele counters. -/
def sumCounts (l : List (Line × Nat)) : Nat := (l.map Prod.snd).sum

/-- `total_count = ref_count + sum(allele_counts.values())` (line 76). -/
def totalOf (c : Counts) : Nat := c.ref + sumCounts c.alts

/-- The total number of counter increments a single read contributes,
starting from fresh counters. -/
def deltaRead (ref : Line) (alts : List Line) (r : PileupRead) : Nat :=
  totalOf (classifyRead ref alts r (initCounts alts))

/-! ## `LOD_edit.py`: scoring (`process_vcf_chunk` lines 76-86, `__main__` lines 194-213) -/

/-- Python division, which raises `ZeroDivisionError` on a zero divisor. -/
def qdiv? (a b : ℚ) : Option ℚ := if b = 0 then none else some (a / b)

/-- `vaf = alt_count / total_count if total_count > 0 else 0` (line 78). -/
def vaf? (altCount total : Nat) : Option ℚ :=
  if 0 < total then qdiv? (altCount : ℚ) (total : ℚ) else some 0

/-- `lod_value = (p_tp * vaf) / ((1 - vaf) * p_se + vaf * p_fp)` (line 79). -/
def lodValue? (ptp pfp pse v : ℚ) : Option ℚ :=
  qdiv? (ptp * v) ((1 - v) * pse + v * pfp)

/-- One output row `(alt, lod_value, coverage, num_variant_reads)` for one
alternate allele (lines 77-86; the row keeps the pre-logarithm `lod_value`,
see `lodOpt`). -/
def scoreRow? (ptp pfp pse : ℚ) (total : Nat) (entry : Line × Nat) :
    Option (Line × ℚ × Nat × Nat) := do
  let v ← vaf? entry.2 total
  let lv ← lodValue? ptp pfp pse v
  some (entry.1, lv, total, entry.2)

/-- The `for alt, alt_count in allele_counts.items()` loop (lines 77-86). -/
def scoreRows? (ptp pfp pse : ℚ) (total : Nat) :
    List (Line × Nat) → Option (List (Line × ℚ × Nat × Nat))
  | [] => some []
  | e :: rest => do
    let r ← scoreRow? ptp pfp pse total e
    let rs ← scoreRows? ptp pfp pse total rest
    some (r :: rs)

/-- Scoring of one variant's counters. -/
def scoreVariant? (ptp pfp pse : ℚ) (c : Counts) :
    Option (List (Line × ℚ × Nat × Nat)) :=
  scoreRows? ptp pfp pse (totalOf c) c.alts

/-- `lod = math.log10(lod_value) if lod_value > 0 else float("-inf")`
(line 80): `none` is `-inf`; the logarithm is abstract (`log10`), since the
classification below only compares it with constants. -/
def lodOpt {α : Type} (log10 : ℚ → α) (lv : ℚ) : Option α :=
  if 0 < lv then some (log10 lv) else none

/-- Lines 194-209 of `__main__`: the detectability score and label from the
`lod` value (`none` = `-inf`) and the coverage.  The first branch sets both
score and label; the second `if`-chain then recomputes the label from the
score, which is what the code's net behaviour is. -/
def detectability {α : Type} [LinearOrderedField α] (lod : Option α) (coverage : Nat) :
    α × Line :=
  let score : α :=
    match lod with
    | none => 0
    | some x => if coverage ≤ 1 then 0 else x
  let label : Line :=
    if 5 / 2 ≤ score then chars "Detectable"
    else if 0 < score ∧ score < 5 / 2 then chars "Non-detectable"
    else chars "Non-detectable"
  (score, label)

/-- Classification of one output row: `(alt, score, label, coverage, variant_reads)`. -/
def classifyRow {α : Type} [LinearOrderedField α] (log10 : ℚ → α)
    (row : Line × ℚ × Nat × Nat) : Line × α × Line × Nat × Nat :=
  let sc := detectability (lodOpt log10 row.2.1) row.2.2.1
  (row.1, sc.1, sc.2, row.2.2.1, row.2.2.2)

/-! ## `LOD_edit.py`: `chunkify` (lines 91-98) -/

/-- Repeated slicing `lst[i : i + size]` for `i in range(0, len(lst), size)`;
`fuel` is a termination device only, any value `≥ lst.length` is exact since
each slice consumes at least one element when `size ≥ 1`. -/
def slicesFuel {α : Type} : Nat → Nat → List α → List (List α)
  | 0, _, _ => []
  | _ + 1, _, [] => []
  | fuel + 1, size, x :: xs => ((x :: xs).take size) :: slicesFuel fuel size (xs.drop (size - 1))

/-- `[lst[i : i + size] for i in range(0, len(lst), size)]`. -/
def slices {α : Type} (size : Nat) (l : List α) : List (List α) :=
  slicesFuel l.length size l

/-- `chunkify` (lines 91-98): clamp the chunk count to the list length,
fall back to a single chunk when non-positive, and slice with
`chunk_size = max(1, len(lst) // num_chunks)`. -/
def chunkify {α : Type} (lst : List α) (numChunks : Int) : List (List α) :=
  let n : Int := min numChunks (lst.length : Int)
  if n ≤ 0 then [lst]
  else slices (max 1 (lst.length / n.toNat)) lst

/-- The effective chunk size used by `chunkify` for a positive request. -/
def chunkSizeOf (L : Nat) (W : Int) : Nat := max 1 (L / (min W (L : Int)).toNat)

/-! ## `merge_vcf_lod.py`: `merge_detectability_into_vcf` -/

/-- `columns = line.strip().split("\t")`: split on tab characters
(`"".split("\t") == [""]`, hence the result is never empty). -/
def splitOnTab : Line → List Line
  | [] => [[]]
  | c :: rest =>
    if c = '\t' then [] :: splitOnTab rest
    else
      match splitOnTab rest with
      | [] => [[c]]
      | f :: fs => (c :: f) :: fs

/-- Split on a whitespace predicate, keeping empty segments. -/
def splitWsAux : Line → List Line
  | [] => [[]]
  | c :: rest =>
    if c = ' ' ∨ c = '\t' then [] :: splitWsAux rest
    else
      match splitWsAux rest with
      | [] => [[c]]
      | f :: fs => (c :: f) :: fs

/-- `line.strip().split()`: split on whitespace, dropping empty fields. -/
def splitWs (l : Line) : List Line := (splitWsAux l).filter (fun f => !f.isEmpty)

/-- `header.index("INFO")`: `none` models the `ValueError` raised when the
token is absent. -/
def idxOf? (t : Line) : List Line → Option Nat
  | [] => none
  | h :: rest => if h = t then some 0 else (idxOf? t rest).map (· + 1)

/-- Digit run to a number. -/
def digitsVal (l : Line) : Nat := l.foldl (fun acc c => acc * 10 + (c.toNat - 48)) 0

/-- Parse a non-empty all-digit string. -/
def parseNat? (l : Line) : Option Nat :=
  if l.isEmpty then none
  else if l.all Char.isDigit then some (digitsVal l) else none

/-- `int(columns[1])`: `none` models the raised `ValueError` on a
non-numeric field (an optional sign followed by digits is accepted). -/
def parseInt? : Line → Option Int
  | '-' :: rest => (parseNat? rest).map (fun n => -(n : Int))
  | l => (parseNat? l).map (fun n => (n : Int))

/-- The join key `(Chrom, Pos, Ref, Alt)` of the detectability table. -/
abbrev DetKey := Line × Int × Line × Line

/-- `detectability_data_dict`, as a finite map from key to
(`condition` text, `score` text). -/
abbrev DetTable := DetKey → Option (Line × Line)

/-- The inserted `##INFO` description line for `DET` (line 34). -/
def detLine1 : Line :=
  chars "##INFO=<ID=DET,Number=1,Type=String,Description=\"Detectability status (Yes if detectable, No if non-detectable)\">"

/-- The inserted `##INFO` description line for `DETS` (line 35). -/
def detLine2 : Line :=
  chars "##INFO=<ID=DETS,Number=1,Type=Float,Description=\"Detectability Score\">"

/-- The annotation appended to the INFO column (line 48). -/
def annotSuffix (cond score : Line) : Line :=
  chars ";DET=" ++ cond ++ chars ";DETS=" ++ score

/-- The loop state of `merge_detectability_into_vcf`: the `info_added`
flag and the last computed `info_idx` (`none` before any `#C` line). -/
structure MState where
  infoAdded : Bool
  infoIdx : Option Nat
deriving DecidableEq

/-- Lines 41-51: processing of a data record.  `none` models a raised
exception: a short record (`IndexError`), a non-numeric position
(`ValueError` from `int`), or a missing `info_idx` (`NameError`). -/
def processData (det : DetTable) (infoIdx : Option Nat) (line : Line) : Option Line := do
  let cols := splitOnTab line
  let c0 ← cols.get? 0
  let c1 ← cols.get? 1
  let _ ← cols.get? 2
  let c3 ← cols.get? 3
  let c4 ← cols.get? 4
  let pos ← parseInt? c1
  match det (c0, pos, c3, c4) with
  | some cs => do
    let i ← infoIdx
    let ci ← cols.get? i
    some (List.intercalate ['\t'] (cols.set i (ci ++ annotSuffix cs.1 cs.2)))
  | none => some line

/-- Lines 30-51 after the `#C` check: the `##INFO` branch (with the
one-time insertion of `detLine1`/`detLine2` right after the line), the
other-header branch, and the data branch. -/
def mergeStepRest (det : DetTable) (st : MState) (line : Line) :
    Option (MState × List Line) :=
  if (chars "##INFO").isPrefixOf line then
    if st.infoAdded then some (st, [line])
    else some (⟨true, st.infoIdx⟩, [line, detLine1, detLine2])
  else if (chars "##").isPrefixOf line || (chars "#").isPrefixOf line then
    some (st, [line])
  else (processData det st.infoIdx line).map (fun out => (st, [out]))

/-- Lines 27-51: one iteration of the line loop.  A `#C` line recomputes
`info_idx` (and then continues into the header checks, as in the code,
which has no `continue` in that branch). -/
def mergeStep (det : DetTable) (st : MState) (line : Line) :
    Option (MState × List Line) :=
  if (chars "#C").isPrefixOf line then
    match idxOf? (chars "INFO") (splitWs line) with
    | none => none
    | some i => mergeStepRest det ⟨st.infoAdded, some i⟩ line
  else mergeStepRest det st line

/-- The whole line loop, threading the state and concatenating the
emitted lines. -/
def mergeGo (det : DetTable) : MState → List Line → Option (MState × List Line)
  | st, [] => some (st, [])
  | st, l :: ls => do
    let so ← mergeStep det st l
    let rest ← mergeGo det so.1 ls
    some (rest.1, so.2 ++ rest.2)

/-- `merge_detectability_into_vcf`, from the parsed detectability table and
the input VCF lines to the output VCF lines (`none` = the run aborts with
an exception). -/
def mergeVcf (det : DetTable) (lines : List Line) : Option (List Line) :=
  (mergeGo det ⟨false, none⟩ lines).map Prod.snd

/-- The empty detectability table. -/
def detEmpty : DetTable := fun _ => none

/-! ## Chunking lemmas -/

theorem slicesFuel_flatten {α : Type} (size : Nat) (hs : 1 ≤ size) :
    ∀ (fuel : Nat) (l : List α), l.length ≤ fuel → (slicesFuel fuel size l).flatten = l := by
  intro fuel
  induction fuel with
  | zero =>
    intro l hl
    have : l = [] := by
      cases l with
      | nil => rfl
      | cons x xs => simp at hl
    subst this; rfl
  | succ fuel ih =>
    intro l hl
    cases l with
    | nil => rfl
    | cons x xs =>
      obtain ⟨s, rfl⟩ : ∃ s, size = s + 1 := ⟨size - 1, by omega⟩
      have hrec : (xs.drop s).length ≤ fuel := by
        simp only [List.length_drop]
        simp only [List.length_cons] at hl
        omega
      simp only [slicesFuel, List.flatten_cons, Nat.add_sub_cancel, ih (xs.drop s) hrec,
        List.take_succ_cons]
      simp [List.take_append_drop]

theorem slicesFuel_length {α : Type} (size : Nat) (hs : 1 ≤ size) :
    ∀ (fuel : Nat) (l : List α), l.length ≤ fuel →
      (slicesFuel fuel size l).length = (l.length + size - 1) / size := by
  intro fuel
  induction fuel with
  | zero =>
    intro l hl
    have : l = [] := by
      cases l with
      | nil => rfl
      | cons x xs => simp at hl
    subst this
    simp [slicesFuel, Nat.div_eq_of_lt (by omega : size - 1 < size)]
  | succ fuel ih =>
    intro l hl
    cases l with
    | nil => simp [slicesFuel, Nat.div_eq_of_lt (by omega : size - 1 < size)]
    | cons x xs =>
      have hrec : (xs.drop (size - 1)).length ≤ fuel := by
        simp only [List.length_drop]
        simp only [List.length_cons] at hl
        omega
      simp only [slicesFuel, List.length_cons, ih _ hrec, List.length_drop]
      set n := xs.length + 1 with hn
      have hxlen : xs.length = n - 1 := by omega
      rw [hxlen]
      by_cases hns : n ≤ size
      · have h1 : n - 1 - (size - 1) + size - 1 = size - 1 := by omega
        have h2 : n + size - 1 = (n - 1) + size := by omega
        rw [h1, h2, Nat.add_div_right _ (by omega : 0 < size),
          Nat.div_eq_of_lt (by omega : size - 1 < size),
          Nat.div_eq_of_lt (by omega : n - 1 < size)]
      · have h1 : n - 1 - (size - 1) + size - 1 = (n - size - 1) + size := by omega
        have h2 : n + size - 1 = ((n - size - 1) + size) + size := by omega
        rw [h1, h2, Nat.add_div_right _ (by omega : 0 < size),
          Nat.add_div_right _ (by omega : 0 < size),
          Nat.add_div_right _ (by omega : 0 < size)]

theorem slicesFuel_ne_nil {α : Type} (size : Nat) (hs : 1 ≤ size) :
    ∀ (fuel : Nat) (l : List α), ∀ c ∈ slicesFuel fuel size l, c ≠ [] := by
  intro fuel
  induction fuel with
  | zero => intro l c hc; simp [slicesFuel] at hc
  | succ fuel ih =>
    intro l c hc
    cases l with
    | nil => simp [slicesFuel] at hc
    | cons x xs =>
      obtain ⟨s, rfl⟩ : ∃ s, size = s + 1 := ⟨size - 1, by omega⟩
      simp only [slicesFuel, List.mem_cons] at hc
      rcases hc with rfl | hc
      · simp [List.take_succ_cons]
      · exact ih _ _ hc

/-- C3 (amended): when `W ≤ 0`, `chunkify` returns the whole list as one
chunk; when `0 < W`, the number of chunks is
`⌈L / max 1 (L / min W L)⌉` (which equals `min W L` when `W ≥ L`, but can
exceed `W` otherwise, e.g. `L = 10, W = 4` yields 5 chunks). -/
theorem C3_chunk_count {α : Type} (lst : List α) (W : Int) (hL : lst ≠ []) :
    (W ≤ 0 → chunkify lst W = [lst]) ∧
    (0 < W → (chunkify lst W).length =
      (lst.length + chunkSizeOf lst.length W - 1) / chunkSizeOf lst.length W) ∧
    ((lst.length : Int) ≤ W → (chunkify lst W).length = lst.length) := by
  have hlen : 0 < lst.length := List.length_pos.mpr hL
  have hpart2 : 0 < W → (chunkify lst W).length =
      (lst.length + chunkSizeOf lst.length W - 1) / chunkSizeOf lst.length W := by
    intro hW
    have hmin : 0 < min W (lst.length : Int) := by
      apply lt_min hW
      exact_mod_cast hlen
    have hsz : 1 ≤ chunkSizeOf lst.length W := le_max_left _ _
    simp only [chunkify, if_neg (not_le.mpr hmin)]
    exact slicesFuel_length _ hsz _ _ le_rfl
  refine ⟨?_, hpart2, ?_⟩
  · intro hW
    have : min W (lst.length : Int) ≤ 0 := le_trans (min_le_left _ _) hW
    simp only [chunkify, if_pos this]
  · intro hW
    have hW0 : 0 < W := lt_of_lt_of_le (by exact_mod_cast hlen) hW
    have hcs : chunkSizeOf lst.length W = 1 := by
      unfold chunkSizeOf
      rw [min_eq_right hW]
      simp [Nat.div_self hlen]
    rw [hpart2 hW0, hcs]
    simp

/-- C3 fails on the code: a 10-element list with 4 requested workers is
split into 5 chunks, not `min 4 10 = 4`. -/
theorem C3_counterexample :
    (chunkify (List.range 10) (4 : Int)).length = 5 ∧
    (chunkify (List.range 10) (4 : Int)).length ≠ min 4 (List.range 10).length := by
  constructor <;> decide

theorem C3_witness :
    ((4 : Int) ≤ 0 → chunkify (List.range 10) (4 : Int) = [List.range 10]) ∧
    (0 < (4 : Int) → (chunkify (List.range 10) (4 : Int)).length =
      ((List.range 10).length + chunkSizeOf (List.range 10).length 4 - 1) /
        chunkSizeOf (List.range 10).length 4) ∧
    (((List.range 10).length : Int) ≤ 4 → (chunkify (List.range 10) (4 : Int)).length =
      (List.range 10).length) :=
  C3_chunk_count (List.range 10) 4 (by decide)

/-- C9: for a non-empty list, every chunk produced by `chunkify` is
non-empty and the chunks concatenate back to the original list. -/
theorem C9_chunks_cover {α : Type} (lst : List α) (W : Int) (h : lst ≠ []) :
    (∀ c ∈ chunkify lst W, c ≠ []) ∧ (chunkify lst W).flatten = lst := by
  by_cases hn : min W (lst.length : Int) ≤ 0
  · simp only [chunkify, if_pos hn]
    exact ⟨by intro c hc; simp at hc; subst hc; exact h, by simp⟩
  · simp only [chunkify, if_neg hn]
    have hsz : 1 ≤ max 1 (lst.length / (min W (lst.length : Int)).toNat) := le_max_left _ _
    exact ⟨fun c hc => slicesFuel_ne_nil _ hsz _ _ c hc,
      slicesFuel_flatten _ hsz _ _ le_rfl⟩

theorem C9_witness :
    (∀ c ∈ chunkify [1, 2, 3] (2 : Int), c ≠ []) ∧
    (chunkify [1, 2, 3] (2 : Int)).flatten = [1, 2, 3] :=
  C9_chunks_cover [1, 2, 3] 2 (by decide)

/-! ## Scoring lemmas -/

theorem detectability_none {α : Type} [LinearOrderedField α] (cov : Nat) :
    detectability (α := α) none cov = (0, chars "Non-detectable") := by
  simp only [detectability]
  rw [if_neg (by norm_num : ¬(5 / 2 ≤ (0 : α)))]
  simp

/-- C6: for every scored (variant, alternate) pair, if the lod is
`-infinity` (modelled as `none`) or the total informative coverage is
`≤ 1`, the reported score is 0 and the label Non-detectable; otherwise
the reported score is the lod itself and the label is Detectable iff
`lod ≥ 2.50` (so a lod of exactly 2.50 is Detectable and every smaller
lod, including non-positive ones, is Non-detectable). -/
theorem C6_detectability {α : Type} [LinearOrderedField α] (lod : Option α) (cov : Nat) :
    ((lod = none ∨ cov ≤ 1) → detectability lod cov = (0, chars "Non-detectable")) ∧
    (∀ x : α, lod = some x → 1 < cov →
      (detectability lod cov).1 = x ∧
      ((detectability lod cov).2 = chars "Detectable" ↔ 5 / 2 ≤ x)) := by
  have hz : ¬(5 / 2 ≤ (0 : α)) := by norm_num
  constructor
  · rintro (rfl | hcov)
    · simp only [detectability]
      rw [if_neg hz]
      simp
    · cases lod with
      | none =>
        simp only [detectability]
        rw [if_neg hz]
        simp
      | some x =>
        simp only [detectability, if_pos hcov]
        rw [if_neg hz]
        simp
  · rintro x rfl hcov
    have hs : ¬ cov ≤ 1 := not_le.mpr hcov
    refine ⟨by simp [detectability, hs], ?_⟩
    simp only [detectability, if_neg hs]
    by_cases hx : 5 / 2 ≤ x
    · rw [if_pos hx]
      simpa using hx
    · rw [if_neg hx]
      split_ifs <;>
        exact ⟨fun h => absurd h (by decide), fun h => absurd h hx⟩

theorem C6_witness :
    (detectability (some ((5 : ℚ) / 2)) 2).1 = 5 / 2 ∧
    ((detectability (some ((5 : ℚ) / 2)) 2).2 = chars "Detectable" ↔ (5 : ℚ) / 2 ≤ 5 / 2) ∧
    detectability (none : Option ℚ) 0 = (0, chars "Non-detectable") := by
  obtain ⟨h1, h2⟩ := (C6_detectability (some ((5 : ℚ) / 2)) 2).2 (5 / 2) rfl (by norm_num)
  exact ⟨h1, h2, (C6_detectability (none : Option ℚ) 0).1 (Or.inl rfl)⟩

/-- C7: holding the three error-model probabilities (each in (0,1)) and
the total informative count `T` fixed, the lod `log10(lod_value)` is
strictly increasing in the alternate count `c_a` for `vaf` in (0,1). -/
theorem C7_lod_monotone (ptp pfp pse : ℚ) (T c1 c2 : Nat) (l1 l2 : ℚ)
    (htp0 : 0 < ptp) (htp1 : ptp < 1) (hfp0 : 0 < pfp) (hfp1 : pfp < 1)
    (hse0 : 0 < pse) (hse1 : pse < 1)
    (hc0 : 0 < c1) (hc : c1 < c2) (hcT : c2 < T)
    (h1 : (vaf? c1 T).bind (lodValue? ptp pfp pse) = some l1)
    (h2 : (vaf? c2 T).bind (lodValue? ptp pfp pse) = some l2) :
    Real.logb 10 (l1 : ℝ) < Real.logb 10 (l2 : ℝ) := by
  have hT : 0 < T := by omega
  have hTQ : (0 : ℚ) < (T : ℚ) := by exact_mod_cast hT
  set v1 : ℚ := (c1 : ℚ) / (T : ℚ) with hv1def
  set v2 : ℚ := (c2 : ℚ) / (T : ℚ) with hv2def
  have hv1 : 0 < v1 := div_pos (by exact_mod_cast hc0) hTQ
  have hv12 : v1 < v2 := by
    rw [hv1def, hv2def, div_lt_div_right hTQ]
    exact_mod_cast hc
  have hv21 : v2 < 1 := by
    rw [hv2def, div_lt_one hTQ]
    exact_mod_cast hcT
  have hv2pos : 0 < v2 := lt_trans hv1 hv12
  have hD : ∀ v : ℚ, 0 < v → v < 1 → 0 < (1 - v) * pse + v * pfp := fun v h0 h1v =>
    add_pos (mul_pos (by linarith) hse0) (mul_pos h0 hfp0)
  have hD1 : 0 < (1 - v1) * pse + v1 * pfp := hD v1 hv1 (lt_trans hv12 hv21)
  have hD2 : 0 < (1 - v2) * pse + v2 * pfp := hD v2 hv2pos hv21
  rw [vaf?, if_pos hT, qdiv?, if_neg (ne_of_gt hTQ)] at h1 h2
  simp only [Option.some_bind, lodValue?, qdiv?, if_neg (ne_of_gt hD1), Option.some_inj,
    ← hv1def] at h1
  simp only [Option.some_bind, lodValue?, qdiv?, if_neg (ne_of_gt hD2), Option.some_inj,
    ← hv2def] at h2
  have hl1 : l1 = ptp * v1 / ((1 - v1) * pse + v1 * pfp) := h1.symm
  have hl2 : l2 = ptp * v2 / ((1 - v2) * pse + v2 * pfp) := h2.symm
  have hl1pos : 0 < l1 := by
    rw [hl1]
    exact div_pos (mul_pos htp0 hv1) hD1
  have hlt : l1 < l2 := by
    rw [hl1, hl2, div_lt_div_iff hD1 hD2]
    have key : ptp * v2 * ((1 - v1) * pse + v1 * pfp) -
        ptp * v1 * ((1 - v2) * pse + v2 * pfp) = ptp * pse * (v2 - v1) := by ring
    have hpos : 0 < ptp * pse * (v2 - v1) :=
      mul_pos (mul_pos htp0 hse0) (sub_pos.mpr hv12)
    linarith
  exact Real.logb_lt_logb (by norm_num) (by exact_mod_cast hl1pos) (by exact_mod_cast hlt)

theorem C7_witness :
    (vaf? 3 10).bind (lodValue? (999 / 1000) (1 / 1000) (1 / 10000)) = some (29970 / 37) ∧
    (vaf? 4 10).bind (lodValue? (999 / 1000) (1 / 1000) (1 / 10000)) = some (19980 / 23) ∧
    Real.logb 10 ((29970 / 37 : ℚ) : ℝ) < Real.logb 10 ((19980 / 23 : ℚ) : ℝ) :=
  ⟨by norm_num [vaf?, qdiv?, lodValue?], by norm_num [vaf?, qdiv?, lodValue?],
    C7_lod_monotone (999 / 1000) (1 / 1000) (1 / 10000) 10 3 4 (29970 / 37) (19980 / 23)
      (by norm_num) (by norm_num) (by norm_num) (by norm_num) (by norm_num) (by norm_num)
      (by norm_num) (by norm_num) (by norm_num)
      (by norm_num [vaf?, qdiv?, lodValue?]) (by norm_num [vaf?, qdiv?, lodValue?])⟩

/-- C8: a variant with zero informative reads produces, for every
alternate allele, a row with coverage 0 and variant-read count 0 and no
division fault, whose lod value is non-positive (hence lod = `-infinity`)
and whose classification is score 0, Non-detectable. -/
theorem C8_zero_coverage {α : Type} [LinearOrderedField α] (log10 : ℚ → α)
    (ptp pfp pse : ℚ) (c : Counts) (hpse : 0 < pse) (hT : totalOf c = 0) :
    ∃ rows, scoreVariant? ptp pfp pse c = some rows ∧
      rows.length = c.alts.length ∧
      ∀ row ∈ rows, row.2.1 ≤ 0 ∧ row.2.2.1 = 0 ∧ row.2.2.2 = 0 ∧
        classifyRow log10 row = (row.1, 0, chars "Non-detectable", 0, 0) := by
  have hzero : ∀ e ∈ c.alts, e.2 = 0 := by
    intro e he
    have : e.2 ≤ sumCounts c.alts := by
      unfold sumCounts
      exact List.single_le_sum (fun _ _ => Nat.zero_le _) _ (List.mem_map_of_mem Prod.snd he)
    unfold totalOf at hT
    omega
  have hrow : ∀ e ∈ c.alts, scoreRow? ptp pfp pse 0 e = some (e.1, 0, 0, 0) := by
    intro e he
    have he2 : e.2 = 0 := hzero e he
    simp [scoreRow?, vaf?, lodValue?, qdiv?, ne_of_gt hpse, he2]
  have main : ∀ l : List (Line × Nat), (∀ e ∈ l, scoreRow? ptp pfp pse 0 e = some (e.1, 0, 0, 0)) →
      ∃ rows, scoreRows? ptp pfp pse 0 l = some rows ∧ rows.length = l.length ∧
        ∀ row ∈ rows, row.2.1 ≤ 0 ∧ row.2.2.1 = 0 ∧ row.2.2.2 = 0 ∧
          classifyRow log10 row = (row.1, 0, chars "Non-detectable", 0, 0) := by
    intro l
    induction l with
    | nil => exact fun _ => ⟨[], rfl, rfl, by simp⟩
    | cons e rest ih =>
      intro hz
      obtain ⟨rows, hr, hlen, hall⟩ := ih (fun x hx => hz x (List.mem_cons_of_mem _ hx))
      refine ⟨(e.1, 0, 0, 0) :: rows, ?_, by simp [hlen], ?_⟩
      · simp [scoreRows?, hz e (List.mem_cons_self _ _), hr]
      · intro row hmem
        rcases List.mem_cons.mp hmem with rfl | hmem'
        · exact ⟨le_refl 0, rfl, rfl, by simp [classifyRow, lodOpt, detectability_none]⟩
        · exact hall row hmem'
  have hsv : scoreVariant? ptp pfp pse c = scoreRows? ptp pfp pse 0 c.alts := by
    rw [scoreVariant?, hT]
  rw [hsv]
  exact main c.alts hrow

/-! ## Merge lemmas -/

/-- A sample table holding one variant, for concrete runs. -/
def detOne : DetTable := fun k =>
  if k = (chars "chr1", (5 : Int), chars "A", chars "T") then some (chars "Yes", chars "3.0")
  else none

theorem hash_cons_not_prefixOf (cs l : Line) (h : (chars "#").isPrefixOf l = false) :
    ('#' :: cs).isPrefixOf l = false := by
  cases l with
  | nil => rfl
  | cons c rest =>
    rw [show chars "#" = ['#'] from rfl, List.isPrefixOf_cons₂, List.isPrefixOf_nil_left,
      Bool.and_true] at h
    rw [List.isPrefixOf_cons₂, h, Bool.false_and]

theorem info_not_hashC (l : Line) (h : (chars "##INFO").isPrefixOf l = true) :
    (chars "#C").isPrefixOf l = false := by
  rw [List.isPrefixOf_iff_prefix] at h
  obtain ⟨t, rfl⟩ := h
  rfl

theorem mergeStep_data (det : DetTable) (st : MState) (l : Line)
    (h : (chars "#").isPrefixOf l = false) :
    mergeStep det st l = (processData det st.infoIdx l).map (fun o => (st, [o])) := by
  have h1 : (chars "#C").isPrefixOf l = false := hash_cons_not_prefixOf (chars "C") l h
  have h2 : (chars "##INFO").isPrefixOf l = false := hash_cons_not_prefixOf (chars "#INFO") l h
  have h3 : (chars "##").isPrefixOf l = false := hash_cons_not_prefixOf (chars "#") l h
  simp [mergeStep, mergeStepRest, h1, h2, h3, h]

theorem mergeStep_info_added (det : DetTable) (st : MState) (y : Line)
    (hadded : st.infoAdded = true) (hy : (chars "##INFO").isPrefixOf y = true) :
    mergeStep det st y = some (st, [y]) := by
  simp [mergeStep, mergeStepRest, info_not_hashC y hy, hy, hadded]

theorem mergeStep_first_info (det : DetTable) (st : MState) (x : Line)
    (hx : (chars "##INFO").isPrefixOf x = true) (hadded : st.infoAdded = false) :
    mergeStep det st x = some (⟨true, st.infoIdx⟩, [x, detLine1, detLine2]) := by
  simp [mergeStep, mergeStepRest, info_not_hashC x hx, hx, hadded]

theorem mergeStepRest_not_info (det : DetTable) (st : MState) (l : Line)
    (h : (chars "##INFO").isPrefixOf l = false) (st' : MState) (out : List Line)
    (hstep : mergeStepRest det st l = some (st', out)) :
    st' = st ∧ out.length = 1 := by
  simp only [mergeStepRest, h, Bool.false_eq_true, if_false] at hstep
  by_cases h2 : ((chars "##").isPrefixOf l || (chars "#").isPrefixOf l) = true
  · rw [if_pos h2] at hstep
    obtain ⟨h3, h4⟩ := Prod.mk.injEq .. ▸ Option.some_inj.mp hstep
    exact ⟨h3.symm, by rw [← h4]; rfl⟩
  · rw [if_neg h2] at hstep
    cases hpd : processData det st.infoIdx l with
    | none => rw [hpd] at hstep; simp at hstep
    | some o =>
      rw [hpd] at hstep
      obtain ⟨h3, h4⟩ := Prod.mk.injEq .. ▸ Option.some_inj.mp hstep
      exact ⟨h3.symm, by rw [← h4]; rfl⟩

theorem mergeStep_not_info (det : DetTable) (st : MState) (l : Line)
    (h : (chars "##INFO").isPrefixOf l = false) (st' : MState) (out : List Line)
    (hstep : mergeStep det st l = some (st', out)) :
    st'.infoAdded = st.infoAdded ∧ out.length = 1 := by
  by_cases hC : (chars "#C").isPrefixOf l = true
  · simp only [mergeStep, hC, if_true] at hstep
    cases hidx : idxOf? (chars "INFO") (splitWs l) with
    | none => rw [hidx] at hstep; simp at hstep
    | some i =>
      rw [hidx] at hstep
      obtain ⟨hst, hlen⟩ := mergeStepRest_not_info det ⟨st.infoAdded, some i⟩ l h st' out hstep
      exact ⟨by rw [hst], hlen⟩
  · simp only [mergeStep, hC, Bool.false_eq_true, if_false] at hstep
    obtain ⟨hst, hlen⟩ := mergeStepRest_not_info det st l h st' out hstep
    exact ⟨by rw [hst], hlen⟩

theorem mergeGo_append (det : DetTable) (a : List Line) :
    ∀ (st : MState) (b : List Line),
      mergeGo det st (a ++ b) =
        (mergeGo det st a).bind fun ra =>
          (mergeGo det ra.1 b).bind fun rb => some (rb.1, ra.2 ++ rb.2) := by
  induction a with
  | nil =>
    intro st b
    simp only [List.nil_append, mergeGo, Option.some_bind]
    cases mergeGo det st b with
    | none => rfl
    | some r => simp
  | cons l ls ih =>
    intro st b
    simp only [List.cons_append, mergeGo]
    cases hstep : mergeStep det st l with
    | none => rfl
    | some so =>
      simp only [Option.bind_eq_bind, Option.some_bind, List.append_eq]
      rw [ih so.1 b]
      cases mergeGo det so.1 ls with
      | none => rfl
      | some ra =>
        simp only [Option.some_bind]
        cases mergeGo det ra.1 b with
        | none => rfl
        | some rb => simp [List.append_assoc]

theorem mergeGo_no_info (det : DetTable) (lines : List Line) :
    ∀ (st stF : MState) (out : List Line),
      (∀ l ∈ lines, (chars "##INFO").isPrefixOf l = false) →
      mergeGo det st lines = some (stF, out) →
      stF.infoAdded = st.infoAdded ∧ out.length = lines.length := by
  induction lines with
  | nil =>
    intro st stF out _ hgo
    obtain ⟨h1, h2⟩ := Prod.mk.injEq .. ▸ Option.some_inj.mp hgo
    exact ⟨by rw [← h1], by rw [← h2]⟩
  | cons l ls ih =>
    intro st stF out hno hgo
    simp only [mergeGo] at hgo
    cases hstep : mergeStep det st l with
    | none => rw [hstep] at hgo; simp at hgo
    | some so =>
      rw [hstep] at hgo
      simp only [Option.bind_eq_bind, Option.some_bind] at hgo
      cases hrest : mergeGo det so.1 ls with
      | none => rw [hrest] at hgo; simp at hgo
      | some ro =>
        rw [hrest] at hgo
        simp only [Option.bind_eq_bind, Option.some_bind, Option.some_inj] at hgo
        obtain ⟨h1, h2⟩ := Prod.mk.injEq .. ▸ hgo
        obtain ⟨hs1, hs2⟩ := mergeStep_not_info det st l (hno l (List.mem_cons_self _ _))
          so.1 so.2 (by simpa using hstep)
        obtain ⟨hi1, hi2⟩ := ih so.1 ro.1 ro.2 (fun x hx => hno x (List.mem_cons_of_mem _ hx))
          (by simpa using hrest)
        constructor
        · rw [← h1, hi1, hs1]
        · rw [← h2, List.length_append, hs2, hi2]
          simp only [List.length_cons]
          omega

/-- C10: if the input VCF has no `##INFO` header line, the merge inserts
nothing (the `info_added` flag stays false, every processed line emits
exactly one output line, so the output has exactly as many lines as the
input), while data records are still annotated through `processData`,
which appends `;DET=...;DETS=...` to the INFO column of a matching
record. -/
theorem C10_no_info_header (det : DetTable) (lines : List Line) (j : Option Nat)
    (stF : MState) (out : List Line)
    (hno : ∀ l ∈ lines, (chars "##INFO").isPrefixOf l = false)
    (hout : mergeGo det ⟨false, j⟩ lines = some (stF, out)) :
    stF.infoAdded = false ∧ out.length = lines.length ∧
    (∀ (st : MState) (l : Line), (chars "#").isPrefixOf l = false →
      mergeStep det st l = (processData det st.infoIdx l).map (fun o => (st, [o]))) := by
  obtain ⟨h1, h2⟩ := mergeGo_no_info det lines ⟨false, j⟩ stF out hno hout
  exact ⟨h1, h2, fun st l hl => mergeStep_data det st l hl⟩

theorem C10_witness :
    (⟨false, some 7⟩ : MState).infoAdded = false ∧
    [chars "##fileformat=VCFv4.2",
     chars "#CHROM\tPOS\tID\tREF\tALT\tQUAL\tFILTER\tINFO",
     chars "chr1\t5\trs1\tA\tT\t.\t.\tDP=3;DET=Yes;DETS=3.0"].length =
      [chars "##fileformat=VCFv4.2",
       chars "#CHROM\tPOS\tID\tREF\tALT\tQUAL\tFILTER\tINFO",
       chars "chr1\t5\trs1\tA\tT\t.\t.\tDP=3"].length ∧
    (∀ (st : MState) (l : Line), (chars "#").isPrefixOf l = false →
      mergeStep detOne st l = (processData detOne st.infoIdx l).map (fun o => (st, [o]))) :=
  C10_no_info_header detOne
    [chars "##fileformat=VCFv4.2",
     chars "#CHROM\tPOS\tID\tREF\tALT\tQUAL\tFILTER\tINFO",
     chars "chr1\t5\trs1\tA\tT\t.\t.\tDP=3"] none ⟨false, some 7⟩
    [chars "##fileformat=VCFv4.2",
     chars "#CHROM\tPOS\tID\tREF\tALT\tQUAL\tFILTER\tINFO",
     chars "chr1\t5\trs1\tA\tT\t.\t.\tDP=3;DET=Yes;DETS=3.0"]
    (by decide) (by decide)

/-- C1 (amended): the two `DET`/`DETS` header lines are inserted
immediately AFTER the first `##INFO` header line (the code appends the
`##INFO` line first, then the two new lines), exactly once: after the
insertion the `info_added` flag is set and every later `##INFO` line is
emitted alone. -/
theorem C1_insert_after_first_info (det : DetTable) (a b : List Line) (x : Line)
    (out : List Line)
    (ha : ∀ l ∈ a, (chars "##INFO").isPrefixOf l = false)
    (hx : (chars "##INFO").isPrefixOf x = true)
    (hout : mergeVcf det (a ++ x :: b) = some out) :
    ∃ (stA stF : MState) (outA outB : List Line),
      mergeGo det ⟨false, none⟩ a = some (stA, outA) ∧ stA.infoAdded = false ∧
      mergeGo det ⟨true, stA.infoIdx⟩ b = some (stF, outB) ∧
      out = outA ++ x :: detLine1 :: detLine2 :: outB ∧
      (∀ (st : MState) (y : Line), st.infoAdded = true →
        (chars "##INFO").isPrefixOf y = true → mergeStep det st y = some (st, [y])) := by
  unfold mergeVcf at hout
  cases hgo : mergeGo det ⟨false, none⟩ (a ++ x :: b) with
  | none => rw [hgo] at hout; simp at hout
  | some r =>
    rw [hgo] at hout
    simp only [Option.map_some', Option.some_inj] at hout
    rw [mergeGo_append] at hgo
    cases hA : mergeGo det ⟨false, none⟩ a with
    | none => rw [hA] at hgo; simp at hgo
    | some ra =>
      rw [hA] at hgo
      simp only [Option.bind_eq_bind, Option.some_bind] at hgo
      have hAfalse : ra.1.infoAdded = false :=
        (mergeGo_no_info det a ⟨false, none⟩ ra.1 ra.2 ha (by simpa using hA)).1
      simp only [mergeGo] at hgo
      rw [mergeStep_first_info det ra.1 x hx hAfalse] at hgo
      simp only [Option.bind_eq_bind, Option.some_bind] at hgo
      cases hB : mergeGo det ⟨true, ra.1.infoIdx⟩ b with
      | none => rw [hB] at hgo; simp at hgo
      | some rb =>
        rw [hB] at hgo
        simp only [Option.bind_eq_bind, Option.some_bind, Option.some_inj] at hgo
        refine ⟨ra.1, rb.1, ra.2, rb.2, rfl, hAfalse, by simp [hB], ?_,
          fun st y hst hy => mergeStep_info_added det st y hst hy⟩
        rw [← hout, ← hgo]
        simp

theorem C1_witness :
    ∃ (stA stF : MState) (outA outB : List Line),
      mergeGo detEmpty ⟨false, none⟩ [chars "##fileformat=VCFv4.2"] = some (stA, outA) ∧
      stA.infoAdded = false ∧
      mergeGo detEmpty ⟨true, stA.infoIdx⟩ [chars "##INFO=<ID=Y>"] = some (stF, outB) ∧
      [chars "##fileformat=VCFv4.2", chars "##INFO=<ID=X>", detLine1, detLine2,
        chars "##INFO=<ID=Y>"] =
        outA ++ chars "##INFO=<ID=X>" :: detLine1 :: detLine2 :: outB ∧
      (∀ (st : MState) (y : Line), st.infoAdded = true →
        (chars "##INFO").isPrefixOf y = true → mergeStep detEmpty st y = some (st, [y])) :=
  C1_insert_after_first_info detEmpty [chars "##fileformat=VCFv4.2"] [chars "##INFO=<ID=Y>"]
    (chars "##INFO=<ID=X>")
    [chars "##fileformat=VCFv4.2", chars "##INFO=<ID=X>", detLine1, detLine2,
      chars "##INFO=<ID=Y>"]
    (by decide) (by decide) (by decide)

/-- C1 fails on the code as stated: with two `##INFO` input lines the new
header lines appear immediately after the first `##INFO` line, not before
it. -/
theorem C1_counterexample :
    mergeVcf detEmpty [chars "##INFO=<ID=X>", chars "##INFO=<ID=Y>"] =
      some [chars "##INFO=<ID=X>", detLine1, detLine2, chars "##INFO=<ID=Y>"] ∧
    [chars "##INFO=<ID=X>", detLine1, detLine2, chars "##INFO=<ID=Y>"] ≠
      [detLine1, detLine2, chars "##INFO=<ID=X>", chars "##INFO=<ID=Y>"] := by
  constructor <;> decide

/-- C4: the code CRASHES on a data record whose position field is not a
decimal integer: `int(columns[1])` raises `ValueError` (modelled as
`none`), instead of treating the record as a non-match as the
specification requires. -/
theorem C4_nonnumeric_pos_crash (det : DetTable) :
    mergeVcf det [chars "#CHROM\tPOS\tID\tREF\tALT\tQUAL\tFILTER\tINFO",
      chars "chr1\tXYZ\trs1\tA\tT\t.\t.\tDP=3"] = none ∧
    parseInt? (chars "XYZ") = none := by
  constructor <;> rfl

theorem C8_witness :
    ∃ rows, scoreVariant? (999 / 1000) (1 / 1000) (1 / 10000)
        ⟨0, [(chars "T", 0), (chars "G", 0)]⟩ = some rows ∧
      rows.length = (⟨0, [(chars "T", 0), (chars "G", 0)]⟩ : Counts).alts.length ∧
      ∀ row ∈ rows, row.2.1 ≤ 0 ∧ row.2.2.1 = 0 ∧ row.2.2.2 = 0 ∧
        classifyRow (fun q : ℚ => q) row = (row.1, 0, chars "Non-detectable", 0, 0) :=
  C8_zero_coverage (fun q : ℚ => q) (999 / 1000) (1 / 1000) (1 / 10000)
    ⟨0, [(chars "T", 0), (chars "G", 0)]⟩ (by norm_num) (by decide)

/-! ## Classifier lemmas -/

theorem hasKey_iff (l : List (Line × Nat)) (k : Line) :
    hasKey l k = true ↔ k ∈ keysOf l := by
  simp [hasKey, List.elem_iff]

theorem keysOf_bump (k : Line) (l : List (Line × Nat)) : keysOf (bump k l) = keysOf l := by
  induction l with
  | nil => rfl
  | cons e rest ih =>
    obtain ⟨a, n⟩ := e
    simp only [bump]
    split_ifs with h
    · simp [keysOf]
    · simp only [keysOf, List.map_cons] at ih ⊢
      rw [ih]

theorem hasKey_bump (k k' : Line) (l : List (Line × Nat)) :
    hasKey (bump k l) k' = hasKey l k' := by
  simp [hasKey, keysOf_bump]

theorem sumCounts_bump (k : Line) (l : List (Line × Nat)) (h : hasKey l k = true) :
    sumCounts (bump k l) = sumCounts l + 1 := by
  induction l with
  | nil => simp [hasKey, keysOf] at h
  | cons e rest ih =>
    obtain ⟨a, n⟩ := e
    simp only [bump]
    split_ifs with hak
    · simp [sumCounts]
      omega
    · have h' : hasKey rest k = true := by
        rw [hasKey_iff] at h ⊢
        simp only [keysOf, List.map_cons, List.mem_cons] at h
        rcases h with h | h
        · exact absurd h.symm hak
        · exact h
      simp only [sumCounts, List.map_cons, List.sum_cons] at ih ⊢
      rw [ih h']
      omega

theorem getCount_bump_self (k : Line) (l : List (Line × Nat)) (h : hasKey l k = true) :
    getCount (bump k l) k = getCount l k + 1 := by
  induction l with
  | nil => simp [hasKey, keysOf] at h
  | cons e rest ih =>
    obtain ⟨a, n⟩ := e
    simp only [bump]
    split_ifs with hak
    · subst hak
      simp [getCount, List.find?_cons_of_pos]
    · have h' : hasKey rest k = true := by
        rw [hasKey_iff] at h ⊢
        simp only [keysOf, List.map_cons, List.mem_cons] at h
        rcases h with h | h
        · exact absurd h.symm hak
        · exact h
      have hfind : ∀ (m : Nat) (tail : List (Line × Nat)),
          getCount ((a, m) :: tail) k = getCount tail k := by
        intro m tail
        simp only [getCount]
        rw [List.find?_cons_of_neg]
        simp [hak]
      rw [hfind, hfind, ih h']

theorem getCount_bump_other (k k' : Line) (l : List (Line × Nat)) (hne : k' ≠ k) :
    getCount (bump k l) k' = getCount l k' := by
  induction l with
  | nil => rfl
  | cons e rest ih =>
    obtain ⟨a, n⟩ := e
    simp only [bump]
    split_ifs with hak
    · subst hak
      simp only [getCount]
      rw [List.find?_cons_of_neg, List.find?_cons_of_neg]
      · simp [Ne.symm hne]
      · simp [Ne.symm hne]
    · simp only [getCount] at ih ⊢
      by_cases hk' : a = k'
      · subst hk'
        rw [List.find?_cons_of_pos, List.find?_cons_of_pos] <;> simp
      · rw [List.find?_cons_of_neg, List.find?_cons_of_neg]
        · exact ih
        · simp [hk']
        · simp [hk']

theorem totalOf_init (alts : List Line) : totalOf (initCounts alts) = 0 := by
  induction alts with
  | nil => rfl
  | cons a rest ih =>
    simp only [totalOf, initCounts, sumCounts, List.map_cons, List.map_map, List.sum_cons] at ih ⊢
    omega

theorem keysOf_init (alts : List Line) : keysOf (initCounts alts).alts = alts := by
  induction alts with
  | nil => rfl
  | cons a rest ih =>
    simp only [initCounts, keysOf, List.map_cons, List.map_map] at ih ⊢
    rw [ih]

theorem refUpd_ref (c : Counts) (x : Nat) : ({ c with ref := x } : Counts).ref = x := rfl

theorem refUpd_alts (c : Counts) (x : Nat) : ({ c with ref := x } : Counts).alts = c.alts := rfl

theorem altsUpd_ref (c : Counts) (l : List (Line × Nat)) :
    ({ c with alts := l } : Counts).ref = c.ref := rfl

theorem altsUpd_alts (c : Counts) (l : List (Line × Nat)) :
    ({ c with alts := l } : Counts).alts = l := rfl

theorem totalOf_ref_inc (c : Counts) : totalOf { c with ref := c.ref + 1 } = totalOf c + 1 := by
  simp only [totalOf]
  omega

theorem totalOf_bump (c : Counts) (k : Line) (h : hasKey c.alts k = true) :
    totalOf { c with alts := bump k c.alts } = totalOf c + 1 := by
  simp only [totalOf, sumCounts_bump k c.alts h]
  omega

theorem hasKey_congr (l1 l2 : List (Line × Nat)) (h : keysOf l1 = keysOf l2) (k : Line) :
    hasKey l1 k = hasKey l2 k := by
  simp [hasKey, h]

/-- The branch structure of `classifyRead`, spelled out. -/
theorem classifyRead_eq (ref : Line) (alts : List Line) (r : PileupRead) (c : Counts) :
    classifyRead ref alts r c =
      if r.isRefskip = true then c
      else if ref.length = maxAltLen alts then
        if ref.length = 1 then
          if r.isDel = true then c
          else
            match r.seq.get? r.queryPos with
            | none => c
            | some b => matchBase [b] ref c
        else if r.isDel = true then c
        else matchBase ((r.seq.drop r.queryPos).take ref.length) ref c
      else alts.foldl (indelStep r ref.length) c := rfl

theorem matchBase_parallel (cand ref : Line) (c d : Counts)
    (hcd : keysOf c.alts = keysOf d.alts) :
    (matchBase cand ref c = c ∧ matchBase cand ref d = d) ∨
    (matchBase cand ref c = { c with ref := c.ref + 1 } ∧
      matchBase cand ref d = { d with ref := d.ref + 1 }) ∨
    (∃ k, hasKey c.alts k = true ∧ hasKey d.alts k = true ∧
      matchBase cand ref c = { c with alts := bump k c.alts } ∧
      matchBase cand ref d = { d with alts := bump k d.alts }) := by
  unfold matchBase
  by_cases h1 : cand = ref
  · right; left
    rw [if_pos h1, if_pos h1]
    exact ⟨rfl, rfl⟩
  · rw [if_neg h1, if_neg h1]
    by_cases h2 : hasKey c.alts cand = true
    · have h2d : hasKey d.alts cand = true := by rw [← hasKey_congr _ _ hcd]; exact h2
      right; right
      exact ⟨cand, h2, h2d, by rw [if_pos h2], by rw [if_pos h2d]⟩
    · have h2d : ¬ hasKey d.alts cand = true := by rw [← hasKey_congr _ _ hcd]; exact h2
      left
      rw [if_neg h2, if_neg h2d]
      exact ⟨rfl, rfl⟩

theorem classify_parallel (ref : Line) (alts : List Line) (r : PileupRead) (c d : Counts)
    (hshape : ref.length = maxAltLen alts ∨ ∃ a, alts = [a])
    (hcd : keysOf c.alts = keysOf d.alts)
    (hmem : ∀ a ∈ alts, hasKey c.alts a = true) :
    (classifyRead ref alts r c = c ∧ classifyRead ref alts r d = d) ∨
    (classifyRead ref alts r c = { c with ref := c.ref + 1 } ∧
      classifyRead ref alts r d = { d with ref := d.ref + 1 }) ∨
    (∃ k, hasKey c.alts k = true ∧ hasKey d.alts k = true ∧
      classifyRead ref alts r c = { c with alts := bump k c.alts } ∧
      classifyRead ref alts r d = { d with alts := bump k d.alts }) := by
  by_cases hskip : r.isRefskip = true
  · left
    rw [classifyRead_eq, classifyRead_eq, if_pos hskip, if_pos hskip]
    exact ⟨rfl, rfl⟩
  · by_cases heq : ref.length = maxAltLen alts
    · by_cases h1 : ref.length = 1
      · by_cases hdel : r.isDel = true
        · left
          rw [classifyRead_eq, classifyRead_eq, if_neg hskip, if_neg hskip, if_pos heq,
            if_pos heq, if_pos h1, if_pos h1, if_pos hdel, if_pos hdel]
          exact ⟨rfl, rfl⟩
        · cases hget : r.seq.get? r.queryPos with
          | none =>
            left
            rw [classifyRead_eq, classifyRead_eq, if_neg hskip, if_neg hskip, if_pos heq,
              if_pos heq, if_pos h1, if_pos h1, if_neg hdel, if_neg hdel, hget]
            exact ⟨rfl, rfl⟩
          | some b =>
            have hc : classifyRead ref alts r c = matchBase [b] ref c := by
              rw [classifyRead_eq, if_neg hskip, if_pos heq, if_pos h1, if_neg hdel, hget]
            have hd : classifyRead ref alts r d = matchBase [b] ref d := by
              rw [classifyRead_eq, if_neg hskip, if_pos heq, if_pos h1, if_neg hdel, hget]
            rw [hc, hd]
            exact matchBase_parallel [b] ref c d hcd
      · by_cases hdel : r.isDel = true
        · left
          rw [classifyRead_eq, classifyRead_eq, if_neg hskip, if_neg hskip, if_pos heq,
            if_pos heq, if_neg h1, if_neg h1, if_pos hdel, if_pos hdel]
          exact ⟨rfl, rfl⟩
        · have hc : classifyRead ref alts r c =
              matchBase ((r.seq.drop r.queryPos).take ref.length) ref c := by
            rw [classifyRead_eq, if_neg hskip, if_pos heq, if_neg h1, if_neg hdel]
          have hd : classifyRead ref alts r d =
              matchBase ((r.seq.drop r.queryPos).take ref.length) ref d := by
            rw [classifyRead_eq, if_neg hskip, if_pos heq, if_neg h1, if_neg hdel]
          rw [hc, hd]
          exact matchBase_parallel _ ref c d hcd
    · obtain ⟨a, rfl⟩ : ∃ a, alts = [a] := hshape.resolve_left heq
      have hc : classifyRead ref [a] r c = indelStep r ref.length c a := by
        rw [classifyRead_eq, if_neg hskip, if_neg heq]
        rfl
      have hd : classifyRead ref [a] r d = indelStep r ref.length d a := by
        rw [classifyRead_eq, if_neg hskip, if_neg heq]
        rfl
      rw [hc, hd]
      unfold indelStep
      by_cases hm : r.indel = (a.length : Int) - (ref.length : Int)
      · have hka : hasKey c.alts a = true := hmem a (List.mem_singleton_self a)
        have hkd : hasKey d.alts a = true := by rw [← hasKey_congr _ _ hcd]; exact hka
        right; right
        exact ⟨a, hka, hkd, by rw [if_pos hm], by rw [if_pos hm]⟩
      · rw [if_neg hm, if_neg hm]
        by_cases h0 : r.indel = 0
        · right; left
          rw [if_pos h0, if_pos h0]
          exact ⟨rfl, rfl⟩
        · left
          rw [if_neg h0, if_neg h0]
          exact ⟨rfl, rfl⟩

theorem classify_master (ref : Line) (alts : List Line) (r : PileupRead) (c : Counts)
    (hshape : ref.length = maxAltLen alts ∨ ∃ a, alts = [a])
    (hk : keysOf c.alts = alts) :
    totalOf (classifyRead ref alts r c) = totalOf c + deltaRead ref alts r ∧
    deltaRead ref alts r ≤ 1 ∧
    keysOf (classifyRead ref alts r c).alts = alts := by
  have hkinit : keysOf (initCounts alts).alts = alts := keysOf_init alts
  have hmem : ∀ a ∈ alts, hasKey c.alts a = true := by
    intro a ha
    rw [hasKey_iff, hk]
    exact ha
  unfold deltaRead
  rcases classify_parallel ref alts r c (initCounts alts) hshape (hk.trans hkinit.symm) hmem with
    ⟨h1, h2⟩ | ⟨h1, h2⟩ | ⟨k, hkc, hkd, h1, h2⟩
  · rw [h1, h2, totalOf_init]
    exact ⟨by omega, by simp [totalOf_init], hk⟩
  · rw [h1, h2, totalOf_ref_inc, totalOf_ref_inc, totalOf_init]
    exact ⟨rfl, le_refl 1, hk⟩
  · rw [h1, h2, totalOf_bump c k hkc, totalOf_bump _ k hkd, totalOf_init]
    exact ⟨rfl, le_refl 1, by simp [keysOf_bump, hk]⟩

theorem matchBase_ref_le (cand ref : Line) (c : Counts) :
    (matchBase cand ref c).ref ≤ c.ref + 1 := by
  unfold matchBase
  split_ifs <;> simp

theorem indelStep_ref_le (r : PileupRead) (refLen : Nat) (acc : Counts) (a : Line) :
    (indelStep r refLen acc a).ref ≤ acc.ref + 1 := by
  unfold indelStep
  split_ifs <;> simp

theorem classify_ref_le (ref : Line) (alts : List Line) (r : PileupRead) (c : Counts)
    (hshape : ref.length = maxAltLen alts ∨ ∃ a, alts = [a]) :
    (classifyRead ref alts r c).ref ≤ c.ref + 1 := by
  by_cases hskip : r.isRefskip = true
  · rw [classifyRead_eq, if_pos hskip]
    omega
  · by_cases heq : ref.length = maxAltLen alts
    · by_cases h1 : ref.length = 1
      · by_cases hdel : r.isDel = true
        · rw [classifyRead_eq, if_neg hskip, if_pos heq, if_pos h1, if_pos hdel]
          omega
        · cases hget : r.seq.get? r.queryPos with
          | none =>
            rw [classifyRead_eq, if_neg hskip, if_pos heq, if_pos h1, if_neg hdel, hget]
            exact Nat.le_succ c.ref
          | some b =>
            have hc : classifyRead ref alts r c = matchBase [b] ref c := by
              rw [classifyRead_eq, if_neg hskip, if_pos heq, if_pos h1, if_neg hdel, hget]
            rw [hc]
            exact matchBase_ref_le [b] ref c
      · by_cases hdel : r.isDel = true
        · rw [classifyRead_eq, if_neg hskip, if_pos heq, if_neg h1, if_pos hdel]
          omega
        · have hc : classifyRead ref alts r c =
              matchBase ((r.seq.drop r.queryPos).take ref.length) ref c := by
            rw [classifyRead_eq, if_neg hskip, if_pos heq, if_neg h1, if_neg hdel]
          rw [hc]
          exact matchBase_ref_le _ ref c
    · obtain ⟨a, rfl⟩ : ∃ a, alts = [a] := hshape.resolve_left heq
      have hc : classifyRead ref [a] r c = indelStep r ref.length c a := by
        rw [classifyRead_eq, if_neg hskip, if_neg heq]
        rfl
      rw [hc]
      exact indelStep_ref_le r ref.length c a

/-- C2 (amended): for SNV and MNV variants (reference length equal to the
longest alternate length) and for single-alternate indel variants, each
read contributes at most one counter increment, never more than one
`ref_count` increment, and the final total equals the number of
informative reads (reads contributing exactly one increment); counters
are naturals, hence never negative.  (For multi-alternate indel variants
the code can increment `ref_count` once per alternate for a single read,
see the counterexample.) -/
theorem C2_informative_counts (ref : Line) (alts : List Line) (reads : List PileupRead)
    (hshape : ref.length = maxAltLen alts ∨ ∃ a, alts = [a]) :
    (∀ r, deltaRead ref alts r ≤ 1) ∧
    (∀ (r : PileupRead) (c : Counts), (classifyRead ref alts r c).ref ≤ c.ref + 1) ∧
    totalOf (countReads ref alts reads) =
      reads.countP (fun r => deltaRead ref alts r == 1) := by
  refine ⟨?_, ?_, ?_⟩
  · intro r
    exact (classify_master ref alts r (initCounts alts) hshape (keysOf_init alts)).2.1
  · intro r c
    exact classify_ref_le ref alts r c hshape
  · have hfold : ∀ (rs : List PileupRead) (c : Counts), keysOf c.alts = alts →
        totalOf (rs.foldl (fun c r => classifyRead ref alts r c) c) =
          totalOf c + (rs.map (deltaRead ref alts)).sum := by
      intro rs
      induction rs with
      | nil => intro c _; simp
      | cons r rs' ih =>
        intro c hk
        obtain ⟨h1, _, h3⟩ := classify_master ref alts r c hshape hk
        simp only [List.foldl_cons, List.map_cons, List.sum_cons]
        rw [ih _ h3, h1]
        omega
    have hsum : totalOf (countReads ref alts reads) =
        (reads.map (deltaRead ref alts)).sum := by
      unfold countReads
      rw [hfold reads (initCounts alts) (keysOf_init alts), totalOf_init]
      omega
    have hle : ∀ r, deltaRead ref alts r ≤ 1 := fun r =>
      (classify_master ref alts r (initCounts alts) hshape (keysOf_init alts)).2.1
    have hcount : ∀ rs : List PileupRead,
        (rs.map (deltaRead ref alts)).sum = rs.countP (fun r => deltaRead ref alts r == 1) := by
      intro rs
      induction rs with
      | nil => rfl
      | cons r rs ih =>
        simp only [List.map_cons, List.sum_cons, List.countP_cons, ih]
        rcases Nat.le_one_iff_eq_zero_or_eq_one.mp (hle r) with h0 | h1
        · rw [h0]
          simp
        · rw [h1]
          have hb : ((1 : Nat) == 1) = true := rfl
          rw [hb, if_pos rfl]
          omega
    rw [hsum, hcount]

theorem C2_counterexample :
    deltaRead (chars "A") [chars "ATT", chars "AGG"] ⟨false, false, 0, chars "A", 0⟩ = 2 ∧
    ¬ deltaRead (chars "A") [chars "ATT", chars "AGG"] ⟨false, false, 0, chars "A", 0⟩ ≤ 1 := by
  constructor <;> decide

theorem C2_witness :
    (∀ r, deltaRead (chars "A") [chars "T"] r ≤ 1) ∧
    (∀ (r : PileupRead) (c : Counts),
      (classifyRead (chars "A") [chars "T"] r c).ref ≤ c.ref + 1) ∧
    totalOf (countReads (chars "A") [chars "T"]
        [⟨false, false, 0, chars "A", 0⟩, ⟨false, false, 0, chars "T", 0⟩,
         ⟨false, false, 0, chars "G", 0⟩]) =
      List.countP (fun r => deltaRead (chars "A") [chars "T"] r == 1)
        [⟨false, false, 0, chars "A", 0⟩, ⟨false, false, 0, chars "T", 0⟩,
         ⟨false, false, 0, chars "G", 0⟩] :=
  C2_informative_counts (chars "A") [chars "T"]
    [⟨false, false, 0, chars "A", 0⟩, ⟨false, false, 0, chars "T", 0⟩,
     ⟨false, false, 0, chars "G", 0⟩] (Or.inl (by decide))

theorem indelFold_ref (r : PileupRead) (refLen : Nat) (s : List Line) :
    ∀ c : Counts, (s.foldl (indelStep r refLen) c).ref =
      c.ref + (if r.indel = 0 then
        s.countP (fun a => !(r.indel == (a.length : Int) - (refLen : Int))) else 0) := by
  induction s with
  | nil =>
    intro c
    simp only [List.foldl_nil, List.countP_nil]
    split_ifs <;> rfl
  | cons a s' ih =>
    intro c
    simp only [List.foldl_cons, List.countP_cons]
    rw [ih]
    unfold indelStep
    by_cases h1 : r.indel = (a.length : Int) - (refLen : Int)
    · rw [if_pos h1]
      have hp : (!(r.indel == (a.length : Int) - (refLen : Int))) = false := by simp [h1]
      rw [hp, if_neg (by simp : ¬(false = true)), altsUpd_ref]
      split_ifs <;> omega
    · rw [if_neg h1]
      have hp : (!(r.indel == (a.length : Int) - (refLen : Int))) = true := by simp [h1]
      rw [hp, if_pos rfl]
      by_cases h0 : r.indel = 0
      · rw [if_pos h0, if_pos h0, if_pos h0, refUpd_ref]
        omega
      · rw [if_neg h0, if_neg h0, if_neg h0]

theorem indelFold_getCount (r : PileupRead) (refLen : Nat) (s : List Line) :
    ∀ (c : Counts) (a0 : Line), hasKey c.alts a0 = true →
      getCount (s.foldl (indelStep r refLen) c).alts a0 =
        getCount c.alts a0 +
          s.count a0 * (if r.indel = (a0.length : Int) - (refLen : Int) then 1 else 0) := by
  induction s with
  | nil =>
    intro c a0 _
    simp
  | cons a s' ih =>
    intro c a0 hk0
    simp only [List.foldl_cons, List.count_cons]
    by_cases h1 : r.indel = (a.length : Int) - (refLen : Int)
    · have hstep : indelStep r refLen c a = { c with alts := bump a c.alts } := by
        unfold indelStep
        rw [if_pos h1]
      rw [hstep]
      have hk0' : hasKey ({ c with alts := bump a c.alts } : Counts).alts a0 = true := by
        rw [altsUpd_alts, hasKey_bump]
        exact hk0
      rw [ih _ a0 hk0', altsUpd_alts]
      by_cases haa : a = a0
      · subst haa
        rw [getCount_bump_self a c.alts hk0, if_pos h1, beq_self_eq_true, if_pos rfl]
        omega
      · rw [getCount_bump_other a a0 c.alts (Ne.symm haa),
          beq_eq_false_iff_ne.mpr haa, if_neg (by simp : ¬(false = true))]
        split_ifs <;> omega
    · by_cases h0 : r.indel = 0
      · have hstep : indelStep r refLen c a = { c with ref := c.ref + 1 } := by
          unfold indelStep
          rw [if_neg h1, if_pos h0]
        rw [hstep]
        have hk0' : hasKey ({ c with ref := c.ref + 1 } : Counts).alts a0 = true := by
          rw [refUpd_alts]
          exact hk0
        rw [ih _ a0 hk0', refUpd_alts]
        by_cases haa : a = a0
        · subst haa
          rw [if_neg h1, beq_self_eq_true, if_pos rfl]
          omega
        · rw [beq_eq_false_iff_ne.mpr haa, if_neg (by simp : ¬(false = true))]
          split_ifs <;> omega
      · have hstep : indelStep r refLen c a = c := by
          unfold indelStep
          rw [if_neg h1, if_neg h0]
        rw [hstep, ih _ a0 hk0]
        by_cases haa : a = a0
        · subst haa
          rw [if_neg h1, beq_self_eq_true, if_pos rfl]
          omega
        · rw [beq_eq_false_iff_ne.mpr haa, if_neg (by simp : ¬(false = true))]
          split_ifs <;> omega

/-- C5 (amended): for an indel-shaped variant (reference length different
from the longest alternate length) and a non-refskip read, the classifier
walks the alternates in order: an alternate whose length difference
equals the read's signed indel length has its counter incremented (once
per occurrence in the alternate list); otherwise, if the read's indel
length is 0, the reference counter is incremented — once for EACH such
non-matching alternate, not once per read; a read matching neither
condition for an alternate leaves that alternate's counters unchanged.
With a single alternate this reduces to the claim's concrete scenario
(alt-match on equal difference, ref-match on indel 0, nothing
otherwise). -/
theorem C5_indel_classification (ref : Line) (alts : List Line) (r : PileupRead) (c : Counts)
    (hshape : ref.length ≠ maxAltLen alts) (hskip : r.isRefskip = false) :
    (classifyRead ref alts r c).ref =
      c.ref + (if r.indel = 0 then
        alts.countP (fun a => !(r.indel == (a.length : Int) - (ref.length : Int))) else 0) ∧
    (∀ a : Line, hasKey c.alts a = true →
      getCount (classifyRead ref alts r c).alts a =
        getCount c.alts a +
          alts.count a * (if r.indel = (a.length : Int) - (ref.length : Int) then 1 else 0)) := by
  have hcl : classifyRead ref alts r c = alts.foldl (indelStep r ref.length) c := by
    rw [classifyRead_eq, if_neg (by rw [hskip]; exact Bool.false_ne_true), if_neg hshape]
  rw [hcl]
  exact ⟨indelFold_ref r ref.length alts c,
    fun a ha => indelFold_getCount r ref.length alts c a ha⟩

theorem C5_counterexample :
    classifyRead (chars "C") [chars "CT", chars "CGG"]
        ⟨false, false, 0, chars "C", 0⟩ ⟨0, [(chars "CT", 0), (chars "CGG", 0)]⟩ =
      ⟨2, [(chars "CT", 0), (chars "CGG", 0)]⟩ ∧
    (⟨2, [(chars "CT", 0), (chars "CGG", 0)]⟩ : Counts).ref ≠ 1 := by
  constructor <;> decide

theorem C5_witness :
    ((classifyRead (chars "A") [chars "ATT"] ⟨false, false, 0, chars "A", 2⟩
        (initCounts [chars "ATT"])).ref =
      (initCounts [chars "ATT"]).ref + (if (2 : Int) = 0 then
        List.countP (fun a => !((2 : Int) == (a.length : Int) - ((chars "A").length : Int)))
          [chars "ATT"] else 0)) ∧
    (∀ a : Line, hasKey (initCounts [chars "ATT"]).alts a = true →
      getCount (classifyRead (chars "A") [chars "ATT"] ⟨false, false, 0, chars "A", 2⟩
          (initCounts [chars "ATT"])).alts a =
        getCount (initCounts [chars "ATT"]).alts a +
          List.count a [chars "ATT"] *
            (if (2 : Int) = (a.length : Int) - ((chars "A").length : Int) then 1 else 0)) :=
  C5_indel_classification (chars "A") [chars "ATT"] ⟨false, false, 0, chars "A", 2⟩
    (initCounts [chars "ATT"]) (by decide) rfl

end VLoD
